import Mathlib

/-!
# Verification of the portfolio ledger of `app.py`

A shallow embedding of the session-state ledger of the Streamlit
investment-simulator app (`src/app.py`).  Money amounts and prices are
modelled as exact rationals (`ℚ`); share quantities, produced by
`st.number_input(min_value=1, step=1)`, are natural numbers; `holdings`
(a Python insertion-ordered dict) is an association list with unique
keys; the watchlist is a plain list of strings.
-/

namespace InvSim

/-- Round-half-to-even to the nearest integer, as Python's builtin
`round` behaves on exactly representable values. -/
def rhe (x : ℚ) : ℤ :=
  let f := x.floor
  if x - f < 1/2 then f
  else if 1/2 < x - f then f + 1
  else if f % 2 = 0 then f else f + 1

/-- Python's `round(x, 2)`: round to two decimal places. -/
def round2 (x : ℚ) : ℚ := (rhe (100 * x) : ℚ) / 100

/-- One entry of `st.session_state.holdings`:
`{"qty": <int>, "avg_price": <float>}` (app.py line 71). -/
structure Position where
  qty : ℕ
  avg_price : ℚ
  deriving Repr, DecidableEq

/-- `st.session_state.holdings`, a dict `Symbol → Position` modelled as an
insertion-ordered association list. -/
abbrev Holdings := List (String × Position)

/-- Dict lookup `holdings.get(sym)` (app.py line 282). -/
def hlookup (h : Holdings) (s : String) : Option Position :=
  (h.find? (fun e => e.1 == s)).map (·.2)

/-- In-place update of the entry for key `s` (mutation of the inner dict,
app.py lines 286-287); keys and entry order are unchanged. -/
def hset (h : Holdings) (s : String) (p : Position) : Holdings :=
  h.map (fun e => if e.1 == s then (e.1, p) else e)

/-- `del holdings[s]` (app.py line 316); the order of the remaining
entries is unchanged. -/
def hdel (h : Holdings) (s : String) : Holdings :=
  h.filter (fun e => e.1 != s)

/-- The per-session account state (app.py lines 64-75). -/
structure Account where
  cash : ℚ
  holdings : Holdings
  watchlist : List String
  deriving Repr, DecidableEq

/-- Session-state defaults: cash 10000.0, empty holdings and watchlist
(app.py lines 67-75). -/
def initialAccount : Account := { cash := 10000, holdings := [], watchlist := [] }

/-- The ways a trade request is rejected.  `insufficientFunds` is the
"Insufficient funds." / "Insufficient cash." error of the two buy
handlers; `noPosition` and `insufficientShares` label the sell requests
that the Sell page makes unsubmittable (the symbol selectbox on line 303
only offers held symbols, and the quantity widget on line 305 caps at
the held quantity). -/
inductive TradeError where
  | insufficientFunds
  | noPosition
  | insufficientShares
  deriving Repr, DecidableEq

/-- The Buy page handler, app.py lines 277-291, after the price has been
fetched: `cost = price * buy_qty`; reject when `cash < cost`; otherwise
merge into an existing position (rounding the new average to 2 decimals)
or create a fresh one with `avg_price = round(price, 2)`, and debit the
unrounded cost. -/
def buy (a : Account) (sym : String) (qty : ℕ) (price : ℚ) :
    Except TradeError Account :=
  let cost := price * qty
  if a.cash < cost then .error .insufficientFunds
  else
    match hlookup a.holdings sym with
    | some cur =>
      let total : ℕ := cur.qty + qty
      let avg : ℚ := (cur.avg_price * cur.qty + price * qty) / total
      .ok { a with
              holdings := hset a.holdings sym ⟨total, round2 avg⟩,
              cash := a.cash - cost }
    | none =>
      .ok { a with
              holdings := a.holdings ++ [(sym, ⟨qty, round2 price⟩)],
              cash := a.cash - cost }

/-- The "Buy from Search" handler, app.py lines 370-384: its body is a
verbatim copy of the Buy page handler's ledger logic. -/
def buySearch (a : Account) (sym : String) (qty : ℕ) (price : ℚ) :
    Except TradeError Account :=
  let cost := price * qty
  if a.cash < cost then .error .insufficientFunds
  else
    match hlookup a.holdings sym with
    | some cur =>
      let total : ℕ := cur.qty + qty
      let avg : ℚ := (cur.avg_price * cur.qty + price * qty) / total
      .ok { a with
              holdings := hset a.holdings sym ⟨total, round2 avg⟩,
              cash := a.cash - cost }
    | none =>
      .ok { a with
              holdings := a.holdings ++ [(sym, ⟨qty, round2 price⟩)],
              cash := a.cash - cost }

/-- The session state after a Buy click: the new state on success, the
old state untouched when the handler only shows an error message. -/
def buyApply (a : Account) (sym : String) (qty : ℕ) (price : ℚ) : Account :=
  match buy a sym qty price with
  | .ok a' => a'
  | .error _ => a

/-- The session state after a "Buy from Search" click. -/
def buySearchApply (a : Account) (sym : String) (qty : ℕ) (price : ℚ) : Account :=
  match buySearch a sym qty price with
  | .ok a' => a'
  | .error _ => a

/-- The Sell page handler, app.py lines 303-317.  A request for a symbol
with no position cannot be submitted (the selectbox lists only held
symbols): `noPosition`.  A quantity above the held quantity cannot be
submitted (`max_value=max_qty` on the quantity widget): `insufficientShares`.
Otherwise: `cash += price * sell_qty`, the position's `qty` is decremented,
and the entry is deleted when it reaches 0 (lines 313-316). -/
def sell (a : Account) (sym : String) (qty : ℕ) (price : ℚ) :
    Except TradeError Account :=
  match hlookup a.holdings sym with
  | none => .error .noPosition
  | some cur =>
    if cur.qty < qty then .error .insufficientShares
    else
      let newq : ℕ := cur.qty - qty
      .ok { a with
              cash := a.cash + price * qty,
              holdings :=
                if newq = 0 then hdel a.holdings sym
                else hset a.holdings sym ⟨newq, cur.avg_price⟩ }

/-- The session state after a Sell click. -/
def sellApply (a : Account) (sym : String) (qty : ℕ) (price : ℚ) : Account :=
  match sell a sym qty price with
  | .ok a' => a'
  | .error _ => a

/-- One row's contribution to the Dashboard total, app.py line 242:
`value = round((cur_price * qty) if cur_price else 0.0, 2)`.  An
unavailable quote contributes `round(0.0, 2) = 0`. -/
def holdingValue (prices : String → Option ℚ) (e : String × Position) : ℚ :=
  match prices e.1 with
  | some p => round2 (p * e.2.qty)
  | none => round2 0

/-- The Dashboard "Total Net Worth", app.py lines 236-243 and 253:
`total_value` starts at `cash` and accumulates each holding's value at
the quote price fetched for its symbol. -/
def netWorth (a : Account) (prices : String → Option ℚ) : ℚ :=
  a.cash + (a.holdings.map (holdingValue prices)).sum

/-- Prices shown on the Dashboard come from `fetch_quote`, whose `price`
field is `round(price, 2)` (app.py line 112): an exact multiple of 1/100. -/
def quotePrice (q : ℚ) : Prop := ∃ z : ℤ, q = (z : ℚ) / 100

/-- The "Add to Watchlist" handler of the Search page, app.py lines
356-362: append if absent (`st.success`, `true`), otherwise leave the
list alone (`st.info "Already in watchlist."`, `false`). -/
def wadd (w : List String) (s : String) : List String × Bool :=
  if s ∈ w then (w, false) else (w ++ [s], true)

/-- The add handler of the Watchlist page, app.py lines 394-399: append
when the (already upper-cased) input is non-empty and absent; otherwise
the list is untouched. -/
def watchPageAdd (w : List String) (s : String) : List String × Bool :=
  if s ≠ "" ∧ s ∉ w then (w ++ [s], true) else (w, false)

/-- The remove handler of the Watchlist page, app.py lines 417-421.  A
`Remove {s}` button exists only for `s` in the list, and the handler
calls `watchlist.remove(s)` (drop the first occurrence); for an absent
symbol no button exists and the state is untouched (`false`). -/
def wremove (w : List String) (s : String) : List String × Bool :=
  if s ∈ w then (w.erase s, true) else (w, false)

/-- What a page branch of the `if page == ...` chain starting at app.py
line 224 resolves to. -/
inductive PageOutcome where
  | dashboardShown
  | buyShown
  | sellShown
  | searchShown
  | watchlistShown
  | nameErrorRaised
  | nothingShown
  deriving Repr, DecidableEq

/-- The value bound to the identifier `nav_choice` when line 389 reads
it: the name is assigned nowhere in app.py (its sole occurrence is that
read), so no value is bound. -/
def navChoice : Option String := none

/-- The page-dispatch chain, app.py lines 224-389: `if page ==
"Dashboard": ... elif page == "Buy": ... elif page == "Sell": ... elif
page == "Search": ... elif nav_choice == "Watchlist": ...`.  Evaluating
the final condition reads an unbound name, which raises `NameError`. -/
def dispatch (page : String) : PageOutcome :=
  if page = "Dashboard" then .dashboardShown
  else if page = "Buy" then .buyShown
  else if page = "Sell" then .sellShown
  else if page = "Search" then .searchShown
  else
    match navChoice with
    | none => .nameErrorRaised
    | some v => if v = "Watchlist" then .watchlistShown else .nothingShown

/-- Python's `str.upper()` on the symbol strings the app handles
(basic-latin ticker text), character by character. -/
def pyUpper (s : String) : String := ⟨s.data.map Char.toUpper⟩

/-- A string that upper-casing leaves unchanged. -/
def IsUpperStr (s : String) : Prop := pyUpper s = s

/-- A ledger operation as the claims quantify over them: a buy from
either buy handler, or a sell. -/
inductive Op where
  | buyOp (sym : String) (qty : ℕ) (price : ℚ)
  | buySearchOp (sym : String) (qty : ℕ) (price : ℚ)
  | sellOp (sym : String) (qty : ℕ) (price : ℚ)

/-- The quantity widgets are `st.number_input(min_value=1, step=1)`
(app.py lines 267, 305, 364): every submitted quantity is at least 1. -/
def opValid : Op → Prop
  | .buyOp _ q _ => 1 ≤ q
  | .buySearchOp _ q _ => 1 ≤ q
  | .sellOp _ q _ => 1 ≤ q

/-- Session state after one ledger operation (failed requests leave the
state untouched). -/
def applyOp (a : Account) : Op → Account
  | .buyOp sym q p => buyApply a sym q p
  | .buySearchOp sym q p => buySearchApply a sym q p
  | .sellOp sym q p => sellApply a sym q p

/-- Session state after a sequence of ledger operations starting from
the session-state defaults. -/
def runOps (ops : List Op) : Account := ops.foldl applyOp initialAccount

/-- The held quantity of a symbol: the stored position's `qty`, 0 when
no position exists. -/
def qtyOf (a : Account) (s : String) : ℕ :=
  ((hlookup a.holdings s).map Position.qty).getD 0

/-- A user-interface event that can touch holdings or watchlist, with
the raw (not yet upper-cased) text the user typed where the page takes
text. -/
inductive UiOp where
  | buyUi (raw : String) (qty : ℕ) (price : ℚ)
  | buySearchUi (raw : String) (qty : ℕ) (price : ℚ)
  | sellUi (sym : String) (qty : ℕ) (price : ℚ)
  | searchAddUi (raw : String)
  | watchAddUi (raw : String)
  | watchRemoveUi (sym : String)

/-- Dispatch of one user-interface event on the session state:
* Buy page: `buy_sym = st.text_input(...).upper()` (line 265);
* Buy from Search: `search_sym = st.text_input(...).upper()` (line 326);
* Sell page: the symbol comes from the selectbox over holdings keys
  (line 303), not from typed text;
* Search-page watchlist add: `s = search_sym.upper()` (line 357), a
  second `.upper()` on the already upper-cased `search_sym`;
* Watchlist-page add: `add_sym = st.text_input(...).upper()` (line 393);
* Watchlist-page remove: the symbol comes from the rendered buttons
  (line 417). -/
def applyUiOp (a : Account) : UiOp → Account
  | .buyUi raw q p => buyApply a (pyUpper raw) q p
  | .buySearchUi raw q p => buySearchApply a (pyUpper raw) q p
  | .sellUi sym q p => sellApply a sym q p
  | .searchAddUi raw =>
      { a with watchlist := (wadd a.watchlist (pyUpper (pyUpper raw))).1 }
  | .watchAddUi raw =>
      { a with watchlist := (watchPageAdd a.watchlist (pyUpper raw)).1 }
  | .watchRemoveUi sym =>
      { a with watchlist := (wremove a.watchlist sym).1 }

/-- Session state after a sequence of user-interface events starting
from the session-state defaults. -/
def runUi (ops : List UiOp) : Account := ops.foldl applyUiOp initialAccount

/-- A sequence of buys of one symbol, each as (quantity, unit price),
threaded through the buy handler; the whole sequence fails as soon as
one buy fails. -/
def applyBuysE (a : Account) (sym : String) (l : List (ℕ × ℚ)) :
    Except TradeError Account :=
  l.foldlM (fun acc x => buy acc sym x.1 x.2) a

/-- Total number of shares bought by a sequence of buys. -/
def qsum (l : List (ℕ × ℚ)) : ℕ := (l.map Prod.fst).sum

/-- Total money spent by a sequence of buys. -/
def psum (l : List (ℕ × ℚ)) : ℚ := (l.map (fun x => x.2 * (x.1 : ℚ))).sum

/-- The volume-weighted mean of the purchase prices of a sequence of
buys. -/
def wmean (l : List (ℕ × ℚ)) : ℚ := psum l / qsum l

theorem ratFloor_eq_intFloor (x : ℚ) : (x.floor : ℤ) = ⌊x⌋ := by
  rw [Rat.floor_def', Rat.floor_def]

theorem rhe_intCast (z : ℤ) : rhe (z : ℚ) = z := by
  unfold rhe
  rw [ratFloor_eq_intFloor, Int.floor_intCast]
  norm_num

theorem round2_intCast_div (z : ℤ) : round2 ((z : ℚ) / 100) = (z : ℚ) / 100 := by
  unfold round2
  have h1 : (100 : ℚ) * ((z : ℚ) / 100) = (z : ℚ) := by ring
  rw [h1, rhe_intCast]

theorem round2_zero : round2 0 = 0 := by
  have := round2_intCast_div 0
  simpa using this

theorem hlookup_cons (e : String × Position) (h : Holdings) (s : String) :
    hlookup (e :: h) s = if e.1 = s then some e.2 else hlookup h s := by
  by_cases hc : e.1 = s <;> simp [hlookup, List.find?_cons, hc]

theorem hset_cons (e : String × Position) (h : Holdings) (s : String) (p : Position) :
    hset (e :: h) s p = (if e.1 == s then (e.1, p) else e) :: hset h s p := rfl

theorem hdel_cons (e : String × Position) (h : Holdings) (s : String) :
    hdel (e :: h) s = if e.1 != s then e :: hdel h s else hdel h s := by
  by_cases hc : e.1 = s <;> simp [hdel, List.filter_cons, hc]

theorem hlookup_hset_self (h : Holdings) (s : String) (p cur : Position)
    (hc : hlookup h s = some cur) : hlookup (hset h s p) s = some p := by
  induction h with
  | nil => simp [hlookup] at hc
  | cons e t ih =>
    rw [hset_cons]
    rw [hlookup_cons] at hc
    by_cases he : e.1 = s
    · simp [he, hlookup_cons]
    · rw [if_neg he] at hc
      rw [if_neg (by simpa using he), hlookup_cons, if_neg he]
      exact ih hc

theorem hlookup_hset_ne (h : Holdings) (s : String) (p : Position) (s' : String)
    (hne : s' ≠ s) : hlookup (hset h s p) s' = hlookup h s' := by
  induction h with
  | nil => rfl
  | cons e t ih =>
    rw [hset_cons]
    by_cases he : e.1 = s
    · rw [if_pos (by simpa using he), hlookup_cons, hlookup_cons]
      simp only [he]
      rw [if_neg (fun hh => hne hh.symm), if_neg (fun hh => hne hh.symm)]
      exact ih
    · rw [if_neg (by simpa using he), hlookup_cons, hlookup_cons]
      by_cases he' : e.1 = s'
      · simp [he']
      · rw [if_neg he', if_neg he']
        exact ih

theorem hlookup_hdel_self (h : Holdings) (s : String) :
    hlookup (hdel h s) s = none := by
  induction h with
  | nil => rfl
  | cons e t ih =>
    rw [hdel_cons]
    by_cases he : e.1 = s
    · simp [he, ih]
    · rw [if_pos (by simpa using he), hlookup_cons, if_neg he]
      exact ih

theorem hlookup_hdel_ne (h : Holdings) (s s' : String) (hne : s' ≠ s) :
    hlookup (hdel h s) s' = hlookup h s' := by
  induction h with
  | nil => rfl
  | cons e t ih =>
    rw [hdel_cons]
    by_cases he : e.1 = s
    · rw [if_neg (by simpa using he), hlookup_cons, if_neg (he ▸ fun hh => hne hh.symm)]
      exact ih
    · rw [if_pos (by simpa using he), hlookup_cons, hlookup_cons]
      by_cases he' : e.1 = s'
      · simp [he']
      · rw [if_neg he', if_neg he']
        exact ih

theorem hlookup_append_single_self (h : Holdings) (s : String) (p : Position)
    (hn : hlookup h s = none) : hlookup (h ++ [(s, p)]) s = some p := by
  induction h with
  | nil => simp [hlookup_cons]
  | cons e t ih =>
    rw [hlookup_cons] at hn
    by_cases he : e.1 = s
    · simp [he] at hn
    · rw [if_neg he] at hn
      rw [List.cons_append, hlookup_cons, if_neg he]
      exact ih hn

theorem hlookup_append_single_ne (h : Holdings) (s s' : String) (p : Position)
    (hne : s' ≠ s) : hlookup (h ++ [(s, p)]) s' = hlookup h s' := by
  induction h with
  | nil =>
    have hns : s ≠ s' := fun hh => hne hh.symm
    simp [hlookup, List.find?_cons, hns]
  | cons e t ih =>
    rw [List.cons_append, hlookup_cons, hlookup_cons]
    by_cases he' : e.1 = s'
    · simp [he']
    · rw [if_neg he', if_neg he']
      exact ih

theorem buyApply_cash (a : Account) (sym : String) (q : ℕ) (p : ℚ) :
    (buyApply a sym q p).cash =
      if a.cash < p * q then a.cash else a.cash - p * q := by
  unfold buyApply buy
  by_cases hc : a.cash < p * (q : ℚ)
  · simp [hc]
  · simp only [hc, if_false]
    cases hv : hlookup a.holdings sym <;> simp [hv]

theorem buySearchApply_cash (a : Account) (sym : String) (q : ℕ) (p : ℚ) :
    (buySearchApply a sym q p).cash =
      if a.cash < p * q then a.cash else a.cash - p * q := by
  unfold buySearchApply buySearch
  by_cases hc : a.cash < p * (q : ℚ)
  · simp [hc]
  · simp only [hc, if_false]
    cases hv : hlookup a.holdings sym <;> simp [hv]

/-- **C1.** A buy request with `cash < quantity * unit_price` fails with
`InsufficientFunds` in both buy handlers and leaves the account (cash,
holdings, watchlist) unchanged; consequently no buy ever drives cash
below zero. -/
theorem buy_insufficient_funds
    (a : Account) (sym : String) (qty : ℕ) (price : ℚ)
    (_hq : 1 ≤ qty) (h : a.cash < price * qty) :
    buy a sym qty price = .error .insufficientFunds ∧
    buySearch a sym qty price = .error .insufficientFunds ∧
    buyApply a sym qty price = a ∧
    buySearchApply a sym qty price = a ∧
    (∀ (q' : ℕ) (p' : ℚ), 0 ≤ a.cash →
      0 ≤ (buyApply a sym q' p').cash ∧ 0 ≤ (buySearchApply a sym q' p').cash) := by
  have hb : buy a sym qty price = .error .insufficientFunds := by
    unfold buy; simp [h]
  have hbs : buySearch a sym qty price = .error .insufficientFunds := by
    unfold buySearch; simp [h]
  refine ⟨hb, hbs, ?_, ?_, ?_⟩
  · unfold buyApply; rw [hb]
  · unfold buySearchApply; rw [hbs]
  · intro q' p' hc
    constructor
    · rw [buyApply_cash]
      by_cases hlt : a.cash < p' * q'
      · rwa [if_pos hlt]
      · rw [if_neg hlt]
        rw [not_lt] at hlt
        linarith
    · rw [buySearchApply_cash]
      by_cases hlt : a.cash < p' * q'
      · rwa [if_pos hlt]
      · rw [if_neg hlt]
        rw [not_lt] at hlt
        linarith

/-- **C1 (witness).** The §8 scenario: cash 100, buy 5 shares at 30
(cost 150) is rejected and the account is unchanged. -/
theorem buy_insufficient_funds_witness :
    buy ⟨100, [], []⟩ "AAPL" 5 30 = .error .insufficientFunds ∧
    buySearch ⟨100, [], []⟩ "AAPL" 5 30 = .error .insufficientFunds ∧
    buyApply ⟨100, [], []⟩ "AAPL" 5 30 = ⟨100, [], []⟩ ∧
    buySearchApply ⟨100, [], []⟩ "AAPL" 5 30 = ⟨100, [], []⟩ ∧
    (0:ℚ) ≤ (buyApply ⟨100, [], []⟩ "AAPL" 5 30).cash := by
  have h := buy_insufficient_funds ⟨100, [], []⟩ "AAPL" 5 30 (by norm_num) (by norm_num)
  exact ⟨h.1, h.2.1, h.2.2.1, h.2.2.2.1, (h.2.2.2.2 5 30 (by norm_num)).1⟩



/-- **C2 (counterexample).** A first buy at unit price 0.123 stores
`average_cost = round(0.123, 2) = 0.12`, not the unit price itself: the
claim's fresh-position clause `average_cost = unit_price` fails. -/
theorem buy_new_position_avg_cex :
    buy ⟨100, [], []⟩ "A" 1 (123/1000) =
      .ok ⟨99877/1000, [("A", ⟨1, 3/25⟩)], []⟩ ∧
    (3/25 : ℚ) ≠ 123/1000 := by
  constructor
  · norm_num [buy, hlookup, round2, rhe, ratFloor_eq_intFloor]
  · norm_num

/-- **C2 (amended).** On a successful buy: cash is debited by exactly
`quantity * unit_price`; a fresh position stores `quantity` and
`average_cost = round(unit_price, 2)`; an existing position grows to
`old.quantity + quantity` with the weighted-mean average rounded to two
decimals. -/
theorem buy_success_effects
    (a : Account) (sym : String) (qty : ℕ) (price : ℚ) (a' : Account)
    (hok : buy a sym qty price = .ok a') :
    a'.cash = a.cash - price * qty ∧
    (hlookup a.holdings sym = none →
      hlookup a'.holdings sym = some ⟨qty, round2 price⟩) ∧
    (∀ cur, hlookup a.holdings sym = some cur →
      hlookup a'.holdings sym =
        some ⟨cur.qty + qty,
          round2 ((cur.avg_price * cur.qty + price * qty) / ((cur.qty + qty : ℕ) : ℚ))⟩) := by
  unfold buy at hok
  by_cases hc : a.cash < price * (qty : ℚ)
  · simp [hc] at hok
  · simp only [hc, if_false] at hok
    cases hv : hlookup a.holdings sym with
    | none =>
      rw [hv] at hok
      simp only [Except.ok.injEq] at hok
      subst hok
      refine ⟨rfl, fun _ => ?_, fun cur hcur => Option.noConfusion hcur⟩
      exact hlookup_append_single_self a.holdings sym _ hv
    | some cur =>
      rw [hv] at hok
      simp only [Except.ok.injEq] at hok
      subst hok
      refine ⟨rfl, fun hn => Option.noConfusion hn, fun cur' hcur' => ?_⟩
      have hcc : cur = cur' := by injection hcur'
      subst hcc
      exact hlookup_hset_self a.holdings sym _ cur hv

/-- **C2 (witness).** The §8 scenario: cash 10000, buy 5 AAPL at
132.50: cash becomes 9337.50 and the stored position is
(qty 5, avg 132.50). -/
theorem buy_success_effects_witness :
    buy ⟨10000, [], []⟩ "AAPL" 5 (265/2) =
      .ok ⟨18675/2, [("AAPL", ⟨5, 265/2⟩)], []⟩ ∧
    (⟨18675/2, [("AAPL", ⟨5, 265/2⟩)], []⟩ : Account).cash = 10000 - (265/2) * (5:ℕ) ∧
    hlookup (⟨18675/2, [("AAPL", ⟨5, 265/2⟩)], []⟩ : Account).holdings "AAPL" =
      some ⟨5, round2 (265/2)⟩ := by
  have hok : buy ⟨10000, [], []⟩ "AAPL" 5 (265/2) =
      .ok ⟨18675/2, [("AAPL", ⟨5, 265/2⟩)], []⟩ := by
    norm_num [buy, hlookup, round2, rhe, ratFloor_eq_intFloor]
  have h := buy_success_effects ⟨10000, [], []⟩ "AAPL" 5 (265/2) _ hok
  exact ⟨hok, h.1, h.2.1 rfl⟩


theorem sell_of_none (a : Account) (sym : String) (qty : ℕ) (price : ℚ)
    (hv : hlookup a.holdings sym = none) :
    sell a sym qty price = .error .noPosition := by
  unfold sell; rw [hv]

theorem sell_of_some (a : Account) (sym : String) (qty : ℕ) (price : ℚ)
    (cur : Position) (hv : hlookup a.holdings sym = some cur) :
    sell a sym qty price =
      if cur.qty < qty then .error .insufficientShares
      else .ok { a with
                  cash := a.cash + price * qty,
                  holdings :=
                    if cur.qty - qty = 0 then hdel a.holdings sym
                    else hset a.holdings sym ⟨cur.qty - qty, cur.avg_price⟩ } := by
  unfold sell; rw [hv]

/-- **C4.** A successful sell of `1 ≤ quantity ≤ held` shares: the
position's quantity falls by `quantity` (keeping its `average_cost`)
and the entry is removed outright at zero; cash is credited exactly
`quantity * unit_price`; every other holding and the watchlist are
untouched. -/
theorem sell_success_effects
    (a : Account) (sym : String) (qty : ℕ) (price : ℚ) (a' : Account) (cur : Position)
    (hcur : hlookup a.holdings sym = some cur)
    (_hq1 : 1 ≤ qty) (hqle : qty ≤ cur.qty)
    (hok : sell a sym qty price = .ok a') :
    a'.cash = a.cash + price * qty ∧
    (qty = cur.qty → hlookup a'.holdings sym = none) ∧
    (qty < cur.qty → hlookup a'.holdings sym = some ⟨cur.qty - qty, cur.avg_price⟩) ∧
    (∀ s', s' ≠ sym → hlookup a'.holdings s' = hlookup a.holdings s') ∧
    a'.watchlist = a.watchlist := by
  rw [sell_of_some a sym qty price cur hcur, if_neg (not_lt.2 hqle)] at hok
  by_cases hz : cur.qty - qty = 0
  · rw [if_pos hz] at hok
    simp only [Except.ok.injEq] at hok
    subst hok
    refine ⟨rfl, fun _ => hlookup_hdel_self a.holdings sym,
            fun hlt => absurd hz (by omega), fun s' hne => ?_, rfl⟩
    exact hlookup_hdel_ne a.holdings sym s' hne
  · rw [if_neg hz] at hok
    simp only [Except.ok.injEq] at hok
    subst hok
    refine ⟨rfl, fun heq => absurd heq (by omega), fun _ => ?_, fun s' hne => ?_, rfl⟩
    · exact hlookup_hset_self a.holdings sym _ cur hcur
    · exact hlookup_hset_ne a.holdings sym _ s' hne

/-- **C4 (witness).** The §8 scenario's last step: holding 10 AAPL at
average 141.25 with cash 8587.50, sell all 10 at 160: cash becomes
10187.50 and the position disappears; the watchlist is untouched. -/
theorem sell_success_effects_witness :
    sell ⟨17175/2, [("AAPL", ⟨10, 565/4⟩)], ["TSLA"]⟩ "AAPL" 10 160 =
      .ok ⟨20375/2, [], ["TSLA"]⟩ ∧
    (⟨20375/2, [], ["TSLA"]⟩ : Account).cash = 17175/2 + 160 * (10:ℕ) ∧
    hlookup ([] : Holdings) "AAPL" = none ∧
    (⟨20375/2, [], ["TSLA"]⟩ : Account).watchlist = ["TSLA"] := by
  have hok : sell ⟨17175/2, [("AAPL", ⟨10, 565/4⟩)], ["TSLA"]⟩ "AAPL" 10 160 =
      .ok ⟨20375/2, [], ["TSLA"]⟩ := by
    norm_num [sell, hlookup, hdel]
  have h := sell_success_effects ⟨17175/2, [("AAPL", ⟨10, 565/4⟩)], ["TSLA"]⟩
    "AAPL" 10 160 ⟨20375/2, [], ["TSLA"]⟩ ⟨10, 565/4⟩ rfl (by norm_num) (by norm_num) hok
  exact ⟨hok, h.1, h.2.1 rfl, h.2.2.2.2⟩

/-- **C5.** A sell request for a symbol with no position is rejected
(`NoPosition`), one for more shares than held is rejected
(`InsufficientShares`), and in both cases the entire account state is
unchanged. -/
theorem sell_reject_unchanged
    (a : Account) (sym : String) (qty : ℕ) (price : ℚ)
    (h : ∀ cur, hlookup a.holdings sym = some cur → cur.qty < qty) :
    (hlookup a.holdings sym = none → sell a sym qty price = .error .noPosition) ∧
    (∀ cur, hlookup a.holdings sym = some cur →
      sell a sym qty price = .error .insufficientShares) ∧
    sellApply a sym qty price = a := by
  cases hv : hlookup a.holdings sym with
  | none =>
    have hs : sell a sym qty price = .error .noPosition :=
      sell_of_none a sym qty price hv
    refine ⟨fun _ => hs, fun cur hcur => Option.noConfusion hcur, ?_⟩
    unfold sellApply; rw [hs]
  | some cur =>
    have hs : sell a sym qty price = .error .insufficientShares := by
      rw [sell_of_some a sym qty price cur hv, if_pos (h cur hv)]
    refine ⟨fun hn => Option.noConfusion hn, fun cur' hcur' => hs, ?_⟩
    unfold sellApply; rw [hs]

/-- **C5 (witness).** Holding 5 AAPL, a request to sell 7 is rejected
with `InsufficientShares` and the account is unchanged; on an account
with no position at all, selling is rejected with `NoPosition`. -/
theorem sell_reject_unchanged_witness :
    sell ⟨100, [("AAPL", ⟨5, 10⟩)], []⟩ "AAPL" 7 (16/100) = .error .insufficientShares ∧
    sellApply ⟨100, [("AAPL", ⟨5, 10⟩)], []⟩ "AAPL" 7 (16/100) = ⟨100, [("AAPL", ⟨5, 10⟩)], []⟩ ∧
    sell ⟨100, [], []⟩ "MSFT" 1 (16/100) = .error .noPosition ∧
    sellApply ⟨100, [], []⟩ "MSFT" 1 (16/100) = ⟨100, [], []⟩ := by
  have h1 := sell_reject_unchanged ⟨100, [("AAPL", ⟨5, 10⟩)], []⟩ "AAPL" 7 (16/100)
    (fun cur hcur => by
      have he : hlookup [("AAPL", (⟨5, 10⟩ : Position))] "AAPL" = some ⟨5, 10⟩ := rfl
      rw [he] at hcur
      have hcc : (⟨5, 10⟩ : Position) = cur := by injection hcur
      rw [← hcc]
      norm_num)
  have h2 := sell_reject_unchanged ⟨100, [], []⟩ "MSFT" 1 (16/100)
    (fun cur hcur => Option.noConfusion hcur)
  exact ⟨h1.2.1 ⟨5, 10⟩ rfl, h1.2.2, h2.1 rfl, h2.2.2⟩

/-- **C9.** The Watchlist branch of the dispatch chain (app.py line 389)
tests `nav_choice`, a name assigned nowhere in the program: reaching it
raises `NameError`, so no value of `page` — in particular `"Watchlist"`,
offered by the sidebar radio — ever renders the Watchlist page. -/
theorem watchlist_page_unreachable :
    navChoice = none ∧
    dispatch "Watchlist" = .nameErrorRaised ∧
    ∀ p : String, dispatch p ≠ .watchlistShown := by
  refine ⟨rfl, rfl, fun p => ?_⟩
  unfold dispatch navChoice
  split
  · simp
  · split
    · simp
    · split
      · simp
      · split <;> simp

theorem round2_of_quotePrice_mul (p : ℚ) (q : ℕ) (hq : quotePrice p) :
    round2 (p * q) = p * q := by
  obtain ⟨z, rfl⟩ := hq
  have h : (z : ℚ) / 100 * (q : ℚ) = ((z * (q : ℤ) : ℤ) : ℚ) / 100 := by
    push_cast; ring
  rw [h, round2_intCast_div]

/-- **C7.** The Dashboard total equals cash plus the sum over holdings
of `quantity * current_price`, an unavailable quote contributing 0, for
any assignment of (2-decimal `fetch_quote`) prices to symbols; the
computation never fails on an unavailable price. -/
theorem netWorth_eq_cash_plus_value
    (a : Account) (prices : String → Option ℚ)
    (hp : ∀ s p, prices s = some p → quotePrice p) :
    netWorth a prices =
      a.cash + (a.holdings.map (fun e =>
        match prices e.1 with
        | some p => p * (e.2.qty : ℚ)
        | none => 0)).sum := by
  unfold netWorth
  congr 1
  apply congrArg
  apply List.map_congr_left
  intro e _
  unfold holdingValue
  cases hv : prices e.1 with
  | none => exact round2_zero
  | some p => exact round2_of_quotePrice_mul p e.2.qty (hp e.1 p hv)

/-- **C7 (witness).** Cash 100 with 2 AAPL priced 132.50 and 3 MSFT
whose quote is unavailable: net worth is 100 + 2·132.50 + 0 = 365. -/
theorem netWorth_eq_cash_plus_value_witness :
    netWorth ⟨100, [("AAPL", ⟨2, 10⟩), ("MSFT", ⟨3, 5⟩)], []⟩
      (fun s => if s = "AAPL" then some (265/2) else none) = 365 := by
  have h := netWorth_eq_cash_plus_value
    ⟨100, [("AAPL", ⟨2, 10⟩), ("MSFT", ⟨3, 5⟩)], []⟩
    (fun s => if s = "AAPL" then some (265/2) else none)
    (fun s p hsp => by
      have hsp' : (if s = "AAPL" then some (265/2 : ℚ) else none) = some p := hsp
      by_cases hs : s = "AAPL"
      · rw [if_pos hs] at hsp'
        have hpv : (265/2 : ℚ) = p := by injection hsp'
        exact ⟨13250, by rw [← hpv]; norm_num⟩
      · rw [if_neg hs] at hsp'
        cases hsp')
  rw [h]
  have hms : ("MSFT" = "AAPL") = False := by simp
  norm_num [hms]

theorem buyApply_watchlist (a : Account) (sym : String) (q : ℕ) (p : ℚ) :
    (buyApply a sym q p).watchlist = a.watchlist := by
  unfold buyApply buy
  by_cases hc : a.cash < p * (q : ℚ)
  · simp [hc]
  · simp only [hc, if_false]
    cases hv : hlookup a.holdings sym <;> simp [hv]

theorem buySearch_eq_buy (a : Account) (sym : String) (q : ℕ) (p : ℚ) :
    buySearch a sym q p = buy a sym q p := rfl

theorem buySearchApply_eq_buyApply (a : Account) (sym : String) (q : ℕ) (p : ℚ) :
    buySearchApply a sym q p = buyApply a sym q p := rfl

theorem sellApply_watchlist (a : Account) (sym : String) (q : ℕ) (p : ℚ) :
    (sellApply a sym q p).watchlist = a.watchlist := by
  unfold sellApply sell
  cases hv : hlookup a.holdings sym with
  | none => simp
  | some cur =>
    by_cases hq : cur.qty < q
    · simp [hq]
    · simp [hq]

theorem applyUiOp_watchlist_nodup (a : Account) (o : UiOp)
    (hn : a.watchlist.Nodup) : (applyUiOp a o).watchlist.Nodup := by
  cases o with
  | buyUi raw q p => rw [applyUiOp, buyApply_watchlist]; exact hn
  | buySearchUi raw q p =>
    rw [applyUiOp, buySearchApply_eq_buyApply, buyApply_watchlist]; exact hn
  | sellUi sym q p => rw [applyUiOp, sellApply_watchlist]; exact hn
  | searchAddUi raw =>
    rw [applyUiOp]
    unfold wadd
    by_cases hm : pyUpper (pyUpper raw) ∈ a.watchlist
    · simp [hm, hn]
    · simp only [hm, if_false]
      exact List.Nodup.append hn (List.nodup_singleton _)
        (List.disjoint_singleton.2 hm)
  | watchAddUi raw =>
    rw [applyUiOp]
    unfold watchPageAdd
    by_cases hm : pyUpper raw ≠ "" ∧ pyUpper raw ∉ a.watchlist
    · rw [if_pos hm]
      exact List.Nodup.append hn (List.nodup_singleton _)
        (List.disjoint_singleton.2 hm.2)
    · rw [if_neg hm]
      exact hn
  | watchRemoveUi sym =>
    rw [applyUiOp]
    unfold wremove
    by_cases hm : sym ∈ a.watchlist
    · simp only [hm, if_true]
      exact hn.erase sym
    · simp [hm, hn]

theorem runUi_watchlist_nodup (ops : List UiOp) : (runUi ops).watchlist.Nodup := by
  unfold runUi
  have h : ∀ (a : Account), a.watchlist.Nodup → (ops.foldl applyUiOp a).watchlist.Nodup := by
    induction ops with
    | nil => exact fun a ha => ha
    | cons o t ih =>
      intro a ha
      exact ih (applyUiOp a o) (applyUiOp_watchlist_nodup a o ha)
  exact h initialAccount List.nodup_nil

/-- **C8.** Watchlist algebra: adding a present symbol is a no-op (so a
double add leaves exactly one entry), removing an absent symbol is a
no-op returning false, every add either leaves the list alone or appends
at the end (insertion order kept), removal erases exactly the requested
entry, and any event sequence from the empty session keeps the list
duplicate-free. -/
theorem watchlist_algebra :
    (∀ (w : List String) (s : String), wadd (wadd w s).1 s = ((wadd w s).1, false)) ∧
    (∀ (w : List String) (s : String),
      watchPageAdd (watchPageAdd w s).1 s = ((watchPageAdd w s).1, false)) ∧
    (∀ (w : List String) (s : String), s ∉ w → wremove w s = (w, false)) ∧
    (∀ (w : List String) (s : String), (wadd w s).1 = w ∨ (wadd w s).1 = w ++ [s]) ∧
    (∀ (w : List String) (s : String),
      (watchPageAdd w s).1 = w ∨ (watchPageAdd w s).1 = w ++ [s]) ∧
    (∀ (w : List String) (s : String), s ∈ w → (wremove w s).1 = w.erase s) ∧
    (∀ ops : List UiOp, (runUi ops).watchlist.Nodup) := by
  refine ⟨?_, ?_, ?_, ?_, ?_, ?_, runUi_watchlist_nodup⟩
  · intro w s
    unfold wadd
    by_cases hm : s ∈ w
    · simp [hm]
    · simp only [hm, if_false]
      simp
  · intro w s
    unfold watchPageAdd
    by_cases hm : s ≠ "" ∧ s ∉ w
    · rw [if_pos hm]
      have hns : ¬(s ≠ "" ∧ s ∉ w ++ [s]) := by simp
      rw [if_neg hns]
    · rw [if_neg hm, if_neg hm]
  · intro w s hm
    unfold wremove
    simp [hm]
  · intro w s
    unfold wadd
    by_cases hm : s ∈ w
    · simp [hm]
    · simp [hm]
  · intro w s
    unfold watchPageAdd
    by_cases hm : s ≠ "" ∧ s ∉ w
    · simp [hm]
    · simp [hm]
  · intro w s hm
    unfold wremove
    simp [hm]

/-- **C8 (witness).** The §8 scenario: add "TSLA" twice to the empty
watchlist: one entry; remove from the empty list: no-op returning
false; a concrete run keeps the list duplicate-free. -/
theorem watchlist_algebra_witness :
    wadd (wadd [] "TSLA").1 "TSLA" = ((wadd [] "TSLA").1, false) ∧
    wremove [] "TSLA" = ([], false) ∧
    (runUi [UiOp.searchAddUi "TSLA", UiOp.searchAddUi "TSLA"]).watchlist.Nodup := by
  refine ⟨watchlist_algebra.1 [] "TSLA", ?_, ?_⟩
  · exact watchlist_algebra.2.2.1 [] "TSLA" (by simp)
  · exact watchlist_algebra.2.2.2.2.2.2 [UiOp.searchAddUi "TSLA", UiOp.searchAddUi "TSLA"]

theorem buyApply_of_poor (a : Account) (sym : String) (q : ℕ) (p : ℚ)
    (hc : a.cash < p * q) : buyApply a sym q p = a := by
  unfold buyApply buy
  rw [if_pos hc]

theorem buyApply_of_none (a : Account) (sym : String) (q : ℕ) (p : ℚ)
    (hc : ¬a.cash < p * q) (hv : hlookup a.holdings sym = none) :
    buyApply a sym q p =
      { a with holdings := a.holdings ++ [(sym, ⟨q, round2 p⟩)],
               cash := a.cash - p * q } := by
  unfold buyApply buy
  rw [if_neg hc, hv]

theorem buyApply_of_some (a : Account) (sym : String) (q : ℕ) (p : ℚ) (cur : Position)
    (hc : ¬a.cash < p * q) (hv : hlookup a.holdings sym = some cur) :
    buyApply a sym q p =
      { a with
          holdings := hset a.holdings sym
            ⟨cur.qty + q,
             round2 ((cur.avg_price * cur.qty + p * q) / ((cur.qty + q : ℕ) : ℚ))⟩,
          cash := a.cash - p * q } := by
  unfold buyApply buy
  rw [if_neg hc, hv]

theorem sellApply_of_none (a : Account) (sym : String) (q : ℕ) (p : ℚ)
    (hv : hlookup a.holdings sym = none) : sellApply a sym q p = a := by
  unfold sellApply
  rw [sell_of_none a sym q p hv]

theorem sellApply_of_over (a : Account) (sym : String) (q : ℕ) (p : ℚ) (cur : Position)
    (hv : hlookup a.holdings sym = some cur) (hlt : cur.qty < q) :
    sellApply a sym q p = a := by
  unfold sellApply
  rw [sell_of_some a sym q p cur hv, if_pos hlt]

theorem sellApply_of_ok (a : Account) (sym : String) (q : ℕ) (p : ℚ) (cur : Position)
    (hv : hlookup a.holdings sym = some cur) (hge : ¬cur.qty < q) :
    sellApply a sym q p =
      { a with
          cash := a.cash + p * q,
          holdings :=
            if cur.qty - q = 0 then hdel a.holdings sym
            else hset a.holdings sym ⟨cur.qty - q, cur.avg_price⟩ } := by
  unfold sellApply
  rw [sell_of_some a sym q p cur hv, if_neg hge]

/-- Every stored position has a strictly positive quantity. -/
def AllPos (h : Holdings) : Prop :=
  ∀ s cur, hlookup h s = some cur → 0 < cur.qty

theorem allPos_buyApply (a : Account) (sym : String) (q : ℕ) (p : ℚ)
    (hq : 1 ≤ q) (h : AllPos a.holdings) : AllPos (buyApply a sym q p).holdings := by
  by_cases hc : a.cash < p * (q : ℚ)
  · rw [buyApply_of_poor a sym q p hc]; exact h
  · cases hv : hlookup a.holdings sym with
    | none =>
      rw [buyApply_of_none a sym q p hc hv]
      intro s cur hcur
      by_cases hs : s = sym
      · subst hs
        rw [hlookup_append_single_self _ _ _ hv] at hcur
        have hcc : (⟨q, round2 p⟩ : Position) = cur := by injection hcur
        rw [← hcc]
        exact hq
      · rw [hlookup_append_single_ne _ _ _ _ hs] at hcur
        exact h s cur hcur
    | some cur0 =>
      rw [buyApply_of_some a sym q p cur0 hc hv]
      intro s cur hcur
      by_cases hs : s = sym
      · subst hs
        rw [hlookup_hset_self _ _ _ cur0 hv] at hcur
        cases hcur
        show 0 < cur0.qty + q
        omega
      · rw [hlookup_hset_ne _ _ _ _ hs] at hcur
        exact h s cur hcur

theorem allPos_sellApply (a : Account) (sym : String) (q : ℕ) (p : ℚ)
    (h : AllPos a.holdings) : AllPos (sellApply a sym q p).holdings := by
  cases hv : hlookup a.holdings sym with
  | none => rw [sellApply_of_none a sym q p hv]; exact h
  | some cur =>
    by_cases hlt : cur.qty < q
    · rw [sellApply_of_over a sym q p cur hv hlt]; exact h
    · rw [sellApply_of_ok a sym q p cur hv hlt]
      by_cases hz : cur.qty - q = 0
      · rw [if_pos hz]
        intro s cur' hcur'
        by_cases hs : s = sym
        · subst hs
          rw [hlookup_hdel_self] at hcur'
          cases hcur'
        · rw [hlookup_hdel_ne _ _ _ hs] at hcur'
          exact h s cur' hcur'
      · rw [if_neg hz]
        intro s cur' hcur'
        by_cases hs : s = sym
        · subst hs
          rw [hlookup_hset_self _ _ _ cur hv] at hcur'
          cases hcur'
          show 0 < cur.qty - q
          omega
        · rw [hlookup_hset_ne _ _ _ _ hs] at hcur'
          exact h s cur' hcur'

theorem allPos_runOps (ops : List Op) (hv : ∀ o ∈ ops, opValid o) :
    AllPos (runOps ops).holdings := by
  unfold runOps
  have hstep : ∀ (l : List Op) (a : Account), (∀ o ∈ l, opValid o) →
      AllPos a.holdings → AllPos (l.foldl applyOp a).holdings := by
    intro l
    induction l with
    | nil => exact fun a _ ha => ha
    | cons o t ih =>
      intro a hl ha
      refine ih (applyOp a o) (fun o' ho' => hl o' (List.mem_cons_of_mem o ho')) ?_
      have ho : opValid o := hl o (List.mem_cons_self o t)
      cases o with
      | buyOp sym q p => exact allPos_buyApply a sym q p ho ha
      | buySearchOp sym q p =>
        show AllPos (buySearchApply a sym q p).holdings
        rw [buySearchApply_eq_buyApply]
        exact allPos_buyApply a sym q p ho ha
      | sellOp sym q p => exact allPos_sellApply a sym q p ha
  exact hstep ops initialAccount hv (fun s cur hcur => Option.noConfusion hcur)

/-- **C6.** After any sequence of (widget-valid) buys and sells from the
fresh session, a position is stored for a symbol exactly when its held
quantity is strictly positive: zero-quantity positions are deleted,
never stored. -/
theorem position_iff_positive_qty (ops : List Op)
    (hv : ∀ o ∈ ops, opValid o) (s : String) :
    (hlookup (runOps ops).holdings s).isSome ↔ 0 < qtyOf (runOps ops) s := by
  have hall := allPos_runOps ops hv
  unfold qtyOf
  cases hc : hlookup (runOps ops).holdings s with
  | none => simp
  | some cur =>
    simp only [Option.isSome_some, Option.map_some, Option.getD_some]
    exact iff_of_true trivial (hall s cur hc)

/-- **C6 (witness).** After the single valid buy of 5 AAPL at 132.50,
the stored-position test agrees with quantity positivity for "AAPL". -/
theorem position_iff_positive_qty_witness :
    (hlookup (runOps [Op.buyOp "AAPL" 5 (265/2)]).holdings "AAPL").isSome ↔
      0 < qtyOf (runOps [Op.buyOp "AAPL" 5 (265/2)]) "AAPL" :=
  position_iff_positive_qty [Op.buyOp "AAPL" 5 (265/2)]
    (fun o ho => by
      have : o = Op.buyOp "AAPL" 5 (265/2) := by
        cases ho with
        | head => rfl
        | tail _ hmem => cases hmem
      subst this
      show (1 : ℕ) ≤ 5
      norm_num)
    "AAPL"

theorem qsum_nil : qsum [] = 0 := rfl

theorem psum_nil : psum [] = 0 := rfl

theorem qsum_cons (x : ℕ × ℚ) (l : List (ℕ × ℚ)) : qsum (x :: l) = x.1 + qsum l := by
  unfold qsum; simp

theorem psum_cons (x : ℕ × ℚ) (l : List (ℕ × ℚ)) :
    psum (x :: l) = x.2 * (x.1 : ℚ) + psum l := by
  unfold psum; simp

theorem qsum_perm {l l' : List (ℕ × ℚ)} (h : l.Perm l') : qsum l = qsum l' := by
  unfold qsum; exact (h.map Prod.fst).sum_eq

theorem psum_perm {l l' : List (ℕ × ℚ)} (h : l.Perm l') : psum l = psum l' := by
  unfold psum; exact (h.map _).sum_eq

theorem wmean_perm {l l' : List (ℕ × ℚ)} (h : l.Perm l') : wmean l = wmean l' := by
  unfold wmean; rw [psum_perm h, qsum_perm h]

/-- The running average the buy handler maintains when a position
`(Q, A)` already exists and the buys `l` follow: total spent over total
shares, with the prior position counted at its stored average. -/
def pmean (Q : ℕ) (A : ℚ) (l : List (ℕ × ℚ)) : ℚ :=
  (A * Q + psum l) / ((Q : ℚ) + qsum l)

theorem pmean_nil (Q : ℕ) (A : ℚ) (hQ : 1 ≤ Q) : pmean Q A [] = A := by
  unfold pmean
  rw [psum_nil, qsum_nil]
  have hne : ((Q : ℚ)) ≠ 0 := by
    have : (0 : ℚ) < Q := by exact_mod_cast hQ
    exact ne_of_gt this
  field_simp

theorem wmean_eq_pmean (x : ℕ × ℚ) (l : List (ℕ × ℚ)) :
    wmean (x :: l) = pmean x.1 x.2 l := by
  unfold wmean pmean
  rw [psum_cons, qsum_cons]
  push_cast
  ring_nf

theorem pmean_single (Q : ℕ) (A : ℚ) (x : ℕ × ℚ) :
    pmean Q A [x] = (A * Q + x.2 * x.1) / (((Q + x.1 : ℕ)) : ℚ) := by
  unfold pmean
  rw [psum_cons, qsum_cons, psum_nil, qsum_nil]
  push_cast
  ring_nf

theorem pmean_step (Q : ℕ) (A : ℚ) (x : ℕ × ℚ) (l : List (ℕ × ℚ)) (hQ : 1 ≤ Q) :
    pmean (Q + x.1) (pmean Q A [x]) l = pmean Q A (x :: l) := by
  have h1 : (1 : ℚ) ≤ (Q : ℚ) := by exact_mod_cast hQ
  have h2 : (0 : ℚ) ≤ (x.1 : ℚ) := by positivity
  have h3 : (0 : ℚ) ≤ ((qsum l : ℕ) : ℚ) := by positivity
  have hden : ((Q : ℚ) + (x.1 : ℚ)) ≠ 0 := by linarith
  have hnum : pmean Q A [x] * ((Q : ℚ) + x.1) = A * Q + x.2 * x.1 := by
    rw [pmean_single]
    push_cast
    exact div_mul_cancel₀ _ hden
  generalize hB : pmean Q A [x] = B at hnum ⊢
  unfold pmean
  rw [psum_cons, qsum_cons]
  push_cast
  rw [div_eq_div_iff (by linarith) (by linarith)]
  linear_combination ((Q : ℚ) + (x.1 : ℚ) + ((qsum l : ℕ) : ℚ)) * hnum

theorem applyBuysE_nil (a : Account) (sym : String) : applyBuysE a sym [] = .ok a := rfl

theorem applyBuysE_cons (a : Account) (sym : String) (x : ℕ × ℚ) (l : List (ℕ × ℚ)) :
    applyBuysE a sym (x :: l) =
      match buy a sym x.1 x.2 with
      | .ok a2 => applyBuysE a2 sym l
      | .error e => .error e := by
  show List.foldlM _ a (x :: l) = _
  rw [List.foldlM_cons]
  cases hb : buy a sym x.1 x.2 with
  | ok a2 => rfl
  | error e => rfl

theorem buy_of_poor (a : Account) (sym : String) (qty : ℕ) (price : ℚ)
    (hc : a.cash < price * qty) :
    buy a sym qty price = .error .insufficientFunds := by
  unfold buy
  rw [if_pos hc]

theorem buy_of_none (a : Account) (sym : String) (qty : ℕ) (price : ℚ)
    (hc : ¬a.cash < price * qty) (hv : hlookup a.holdings sym = none) :
    buy a sym qty price =
      .ok { a with holdings := a.holdings ++ [(sym, ⟨qty, round2 price⟩)],
                   cash := a.cash - price * qty } := by
  unfold buy
  rw [if_neg hc, hv]

theorem buy_of_some (a : Account) (sym : String) (qty : ℕ) (price : ℚ) (cur : Position)
    (hc : ¬a.cash < price * qty) (hv : hlookup a.holdings sym = some cur) :
    buy a sym qty price =
      .ok { a with
              holdings := hset a.holdings sym
                ⟨cur.qty + qty,
                 round2 ((cur.avg_price * cur.qty + price * qty) / ((cur.qty + qty : ℕ) : ℚ))⟩,
              cash := a.cash - price * qty } := by
  unfold buy
  rw [if_neg hc, hv]

theorem applyBuys_from_some (sym : String) (l : List (ℕ × ℚ)) :
    ∀ (a a' : Account) (Q : ℕ) (A : ℚ),
      hlookup a.holdings sym = some ⟨Q, A⟩ →
      1 ≤ Q →
      (∀ x ∈ l, 1 ≤ x.1) →
      (∀ k, 1 ≤ k → k ≤ l.length →
        round2 (pmean Q A (l.take k)) = pmean Q A (l.take k)) →
      applyBuysE a sym l = .ok a' →
      hlookup a'.holdings sym = some ⟨Q + qsum l, pmean Q A l⟩ := by
  induction l with
  | nil =>
    intro a a' Q A h0 hQ _ _ hok
    rw [applyBuysE_nil] at hok
    have haa : a = a' := by injection hok
    subst haa
    rw [h0, qsum_nil, pmean_nil Q A hQ]
    simp
  | cons x t ih =>
    intro a a' Q A h0 hQ hq hex hok
    rw [applyBuysE_cons] at hok
    by_cases hc : a.cash < x.2 * (x.1 : ℚ)
    · rw [buy_of_poor a sym x.1 x.2 hc] at hok
      exact Except.noConfusion hok
    · rw [buy_of_some a sym x.1 x.2 ⟨Q, A⟩ hc h0] at hok
      have hok' : applyBuysE
          { a with
              holdings := hset a.holdings sym
                ⟨Q + x.1, round2 ((A * Q + x.2 * x.1) / ((Q + x.1 : ℕ) : ℚ))⟩,
              cash := a.cash - x.2 * x.1 } sym t = .ok a' := hok
      have hex1 : round2 (pmean Q A [x]) = pmean Q A [x] := by
        have := hex 1 (le_refl 1) (by simp)
        simpa [List.take_succ_cons] using this
      have hAv : round2 ((A * Q + x.2 * x.1) / ((Q + x.1 : ℕ) : ℚ)) = pmean Q A [x] := by
        rw [← pmean_single Q A x]
        exact hex1
      rw [hAv] at hok'
      have h0' : hlookup
          ({ a with
              holdings := hset a.holdings sym ⟨Q + x.1, pmean Q A [x]⟩,
              cash := a.cash - x.2 * x.1 } : Account).holdings sym =
          some ⟨Q + x.1, pmean Q A [x]⟩ :=
        hlookup_hset_self a.holdings sym _ ⟨Q, A⟩ h0
      have hQ' : 1 ≤ Q + x.1 := by omega
      have hq' : ∀ y ∈ t, 1 ≤ y.1 := fun y hy => hq y (List.mem_cons_of_mem x hy)
      have hex' : ∀ k, 1 ≤ k → k ≤ t.length →
          round2 (pmean (Q + x.1) (pmean Q A [x]) (t.take k)) =
            pmean (Q + x.1) (pmean Q A [x]) (t.take k) := by
        intro k hk1 hk2
        rw [pmean_step Q A x (t.take k) hQ]
        have := hex (k + 1) (by omega) (by simp; omega)
        simpa [List.take_succ_cons] using this
      have hfin := ih _ a' (Q + x.1) (pmean Q A [x]) h0' hQ' hq' hex' hok'
      rw [hfin, pmean_step Q A x t hQ, qsum_cons]
      have : Q + x.1 + qsum t = Q + (x.1 + qsum t) := by omega
      rw [this]

theorem applyBuys_from_none (sym : String) (l : List (ℕ × ℚ)) (a a' : Account)
    (h0 : hlookup a.holdings sym = none) (hne : l ≠ [])
    (hq : ∀ x ∈ l, 1 ≤ x.1)
    (hex : ∀ k, 1 ≤ k → k ≤ l.length →
      round2 (wmean (l.take k)) = wmean (l.take k))
    (hok : applyBuysE a sym l = .ok a') :
    hlookup a'.holdings sym = some ⟨qsum l, wmean l⟩ := by
  cases l with
  | nil => exact absurd rfl hne
  | cons x t =>
    rw [applyBuysE_cons] at hok
    by_cases hc : a.cash < x.2 * (x.1 : ℚ)
    · rw [buy_of_poor a sym x.1 x.2 hc] at hok
      exact Except.noConfusion hok
    · rw [buy_of_none a sym x.1 x.2 hc h0] at hok
      have hok' : applyBuysE
          { a with holdings := a.holdings ++ [(sym, ⟨x.1, round2 x.2⟩)],
                   cash := a.cash - x.2 * x.1 } sym t = .ok a' := hok
      have hx1 : 1 ≤ x.1 := hq x (List.mem_cons_self x t)
      have hwx : wmean [x] = x.2 := by
        unfold wmean
        rw [psum_cons, qsum_cons, psum_nil, qsum_nil]
        have hne1 : ((x.1 : ℕ) : ℚ) ≠ 0 := by
          have : (0 : ℚ) < (x.1 : ℚ) := by exact_mod_cast hx1
          exact ne_of_gt this
        push_cast
        rw [add_zero, add_zero]
        exact mul_div_cancel_right₀ x.2 hne1
      have hex1 : round2 x.2 = x.2 := by
        have := hex 1 (le_refl 1) (by simp)
        rw [List.take_succ_cons, List.take_zero, hwx] at this
        exact this
      rw [hex1] at hok'
      have h0' : hlookup
          ({ a with holdings := a.holdings ++ [(sym, ⟨x.1, x.2⟩)],
                    cash := a.cash - x.2 * x.1 } : Account).holdings sym =
          some ⟨x.1, x.2⟩ :=
        hlookup_append_single_self a.holdings sym _ h0
      have hq' : ∀ y ∈ t, 1 ≤ y.1 := fun y hy => hq y (List.mem_cons_of_mem x hy)
      have hex' : ∀ k, 1 ≤ k → k ≤ t.length →
          round2 (pmean x.1 x.2 (t.take k)) = pmean x.1 x.2 (t.take k) := by
        intro k hk1 hk2
        have := hex (k + 1) (by omega) (by simp; omega)
        rw [List.take_succ_cons, wmean_eq_pmean] at this
        exact this
      have hfin := applyBuys_from_some sym t _ a' x.1 x.2 h0' hx1 hq' hex' hok'
      rw [hfin, wmean_eq_pmean, qsum_cons]

/-- **C3 (counterexample).** Two one-share buys at 0.004 and 0.006:
buying in that order ends with average_cost 0.00, in the reverse order
with 0.01, and the volume-weighted mean of the prices is 0.005 — the
per-buy round(_, 2) makes the final average differ from the weighted
mean and depend on the order. -/
theorem avg_not_weighted_mean_cex :
    applyBuysE ⟨100, [], []⟩ "A" [(1, 1/250), (1, 3/500)] =
      .ok ⟨9999/100, [("A", ⟨2, 0⟩)], []⟩ ∧
    applyBuysE ⟨100, [], []⟩ "A" [(1, 3/500), (1, 1/250)] =
      .ok ⟨9999/100, [("A", ⟨2, 1/100⟩)], []⟩ ∧
    List.Perm [((1 : ℕ), (1/250 : ℚ)), (1, 3/500)] [(1, 3/500), (1, 1/250)] ∧
    wmean [((1 : ℕ), (1/250 : ℚ)), (1, 3/500)] = 1/200 ∧
    (0 : ℚ) ≠ 1/200 ∧ (1/100 : ℚ) ≠ 0 := by
  refine ⟨?_, ?_, List.Perm.swap _ _ _, ?_, by norm_num, by norm_num⟩
  · have s1 : buy ⟨100, [], []⟩ "A" 1 (1/250) =
        .ok ⟨24999/250, [("A", ⟨1, 0⟩)], []⟩ := by
      norm_num [buy, hlookup, round2, rhe, ratFloor_eq_intFloor]
    have s2 : buy ⟨24999/250, [("A", ⟨1, 0⟩)], []⟩ "A" 1 (3/500) =
        .ok ⟨9999/100, [("A", ⟨2, 0⟩)], []⟩ := by
      norm_num [buy, hlookup, hset, round2, rhe, ratFloor_eq_intFloor]
    rw [applyBuysE_cons, s1]
    show applyBuysE ⟨24999/250, [("A", ⟨1, 0⟩)], []⟩ "A" [(1, 3/500)] = _
    rw [applyBuysE_cons, s2]
    rfl
  · have s1 : buy ⟨100, [], []⟩ "A" 1 (3/500) =
        .ok ⟨49997/500, [("A", ⟨1, 1/100⟩)], []⟩ := by
      norm_num [buy, hlookup, round2, rhe, ratFloor_eq_intFloor]
    have s2 : buy ⟨49997/500, [("A", ⟨1, 1/100⟩)], []⟩ "A" 1 (1/250) =
        .ok ⟨9999/100, [("A", ⟨2, 1/100⟩)], []⟩ := by
      norm_num [buy, hlookup, hset, round2, rhe, ratFloor_eq_intFloor]
    rw [applyBuysE_cons, s1]
    show applyBuysE ⟨49997/500, [("A", ⟨1, 1/100⟩)], []⟩ "A" [(1, 1/250)] = _
    rw [applyBuysE_cons, s2]
    rfl
  · norm_num [wmean, psum, qsum]

/-- **C3 (amended).** For successful buy sequences of a single symbol
starting with no position, whenever every intermediate weighted mean is
exactly representable at 2 decimals (so the per-buy `round(_, 2)` is the
identity), the final `average_cost` is the volume-weighted mean of all
purchase prices; consequently any two such sequences that are
reorderings of one another end with the same position.  (With rounding
that actually truncates, the final average can differ from the weighted
mean and depend on order — see the counterexample.) -/
theorem avg_cost_weighted_mean
    (sym : String) (l l' : List (ℕ × ℚ)) (a b a' b' : Account)
    (hperm : l.Perm l')
    (h0a : hlookup a.holdings sym = none)
    (h0b : hlookup b.holdings sym = none)
    (hne : l ≠ [])
    (hq : ∀ x ∈ l, 1 ≤ x.1)
    (hexa : ∀ k, 1 ≤ k → k ≤ l.length →
      round2 (wmean (l.take k)) = wmean (l.take k))
    (hexb : ∀ k, 1 ≤ k → k ≤ l'.length →
      round2 (wmean (l'.take k)) = wmean (l'.take k))
    (hoka : applyBuysE a sym l = .ok a')
    (hokb : applyBuysE b sym l' = .ok b') :
    hlookup a'.holdings sym = some ⟨qsum l, wmean l⟩ ∧
    hlookup b'.holdings sym = some ⟨qsum l, wmean l⟩ := by
  have h1 := applyBuys_from_none sym l a a' h0a hne hq hexa hoka
  have hne' : l' ≠ [] := by
    intro h
    subst h
    exact hne hperm.eq_nil
  have hq' : ∀ x ∈ l', 1 ≤ x.1 := fun x hx => hq x (hperm.mem_iff.2 hx)
  have h2 := applyBuys_from_none sym l' b b' h0b hne' hq' hexb hokb
  rw [← qsum_perm hperm, ← wmean_perm hperm] at h2
  exact ⟨h1, h2⟩

/-- **C3 (witness).** Buys of one share at 10 then one at 20 (all
intermediate means exact): both orders end with the position
(qty 2, avg 15), the weighted mean. -/
theorem avg_cost_weighted_mean_witness :
    hlookup (⟨70, [("A", ⟨2, 15⟩)], []⟩ : Account).holdings "A" =
      some ⟨qsum [(1, (10:ℚ)), (1, 20)], wmean [(1, (10:ℚ)), (1, 20)]⟩ ∧
    hlookup (⟨70, [("A", ⟨2, 15⟩)], []⟩ : Account).holdings "A" =
      some ⟨qsum [(1, (10:ℚ)), (1, 20)], wmean [(1, (10:ℚ)), (1, 20)]⟩ := by
  have hex1 : ∀ k, 1 ≤ k → k ≤ (([(1, (10:ℚ)), (1, 20)] : List (ℕ × ℚ))).length →
      round2 (wmean ([((1:ℕ), (10:ℚ)), (1, 20)].take k)) =
        wmean ([((1:ℕ), (10:ℚ)), (1, 20)].take k) := by
    intro k h1 h2
    simp only [List.length_cons, List.length_nil] at h2
    interval_cases k
    · norm_num [wmean, psum, qsum, round2, rhe, ratFloor_eq_intFloor]
    · norm_num [wmean, psum, qsum, round2, rhe, ratFloor_eq_intFloor]
  have hex2 : ∀ k, 1 ≤ k → k ≤ (([(1, (20:ℚ)), (1, 10)] : List (ℕ × ℚ))).length →
      round2 (wmean ([((1:ℕ), (20:ℚ)), (1, 10)].take k)) =
        wmean ([((1:ℕ), (20:ℚ)), (1, 10)].take k) := by
    intro k h1 h2
    simp only [List.length_cons, List.length_nil] at h2
    interval_cases k
    · norm_num [wmean, psum, qsum, round2, rhe, ratFloor_eq_intFloor]
    · norm_num [wmean, psum, qsum, round2, rhe, ratFloor_eq_intFloor]
  have hoka : applyBuysE ⟨100, [], []⟩ "A" [(1, (10:ℚ)), (1, 20)] =
      .ok ⟨70, [("A", ⟨2, 15⟩)], []⟩ := by
    have s1 : buy ⟨100, [], []⟩ "A" 1 10 = .ok ⟨90, [("A", ⟨1, 10⟩)], []⟩ := by
      norm_num [buy, hlookup, round2, rhe, ratFloor_eq_intFloor]
    have s2 : buy ⟨90, [("A", ⟨1, 10⟩)], []⟩ "A" 1 20 =
        .ok ⟨70, [("A", ⟨2, 15⟩)], []⟩ := by
      norm_num [buy, hlookup, hset, round2, rhe, ratFloor_eq_intFloor]
    rw [applyBuysE_cons, s1]
    show applyBuysE ⟨90, [("A", ⟨1, 10⟩)], []⟩ "A" [(1, 20)] = _
    rw [applyBuysE_cons, s2]
    rfl
  have hokb : applyBuysE ⟨100, [], []⟩ "A" [(1, (20:ℚ)), (1, 10)] =
      .ok ⟨70, [("A", ⟨2, 15⟩)], []⟩ := by
    have s1 : buy ⟨100, [], []⟩ "A" 1 20 = .ok ⟨80, [("A", ⟨1, 20⟩)], []⟩ := by
      norm_num [buy, hlookup, round2, rhe, ratFloor_eq_intFloor]
    have s2 : buy ⟨80, [("A", ⟨1, 20⟩)], []⟩ "A" 1 10 =
        .ok ⟨70, [("A", ⟨2, 15⟩)], []⟩ := by
      norm_num [buy, hlookup, hset, round2, rhe, ratFloor_eq_intFloor]
    rw [applyBuysE_cons, s1]
    show applyBuysE ⟨80, [("A", ⟨1, 20⟩)], []⟩ "A" [(1, 10)] = _
    rw [applyBuysE_cons, s2]
    rfl
  exact avg_cost_weighted_mean "A" [(1, (10:ℚ)), (1, 20)] [(1, (20:ℚ)), (1, 10)]
    ⟨100, [], []⟩ ⟨100, [], []⟩ ⟨70, [("A", ⟨2, 15⟩)], []⟩ ⟨70, [("A", ⟨2, 15⟩)], []⟩
    (List.Perm.swap _ _ _) rfl rfl (by simp)
    (fun x hx => by
      rcases List.mem_cons.1 hx with rfl | hx2
      · norm_num
      · rcases List.mem_cons.1 hx2 with rfl | hx3
        · norm_num
        · cases hx3)
    hex1 hex2 hoka hokb

theorem toNat_ofNat_of_lt {n : ℕ} (h : n < 55296) : (Char.ofNat n).toNat = n := by
  have hv : n.isValidChar := Or.inl h
  rw [Char.ofNat, dif_pos hv]
  simp [Char.ofNatAux, Char.toNat, UInt32.toNat]

theorem charUpper_idem (c : Char) : (Char.toUpper c).toUpper = Char.toUpper c := by
  unfold Char.toUpper
  by_cases h : c.toNat ≥ 97 ∧ c.toNat ≤ 122
  · rw [if_pos h]
    have h2 : (Char.ofNat (c.toNat - 32)).toNat = c.toNat - 32 :=
      toNat_ofNat_of_lt (by omega)
    rw [h2, if_neg (by omega)]
  · rw [if_neg h, if_neg h]

theorem pyUpper_idem (s : String) : IsUpperStr (pyUpper s) := by
  unfold IsUpperStr pyUpper
  apply congrArg
  show (s.data.map Char.toUpper).map Char.toUpper = s.data.map Char.toUpper
  rw [List.map_map]
  exact List.map_congr_left (fun c _ => charUpper_idem c)

theorem upperKeys_hset (h : Holdings) (s : String) (p : Position)
    (hall : ∀ e ∈ h, IsUpperStr e.1) : ∀ e ∈ hset h s p, IsUpperStr e.1 := by
  intro e he
  rcases List.mem_map.1 he with ⟨e0, he0, rfl⟩
  by_cases hb : e0.1 == s
  · rw [if_pos hb]
    exact hall e0 he0
  · rw [if_neg hb]
    exact hall e0 he0

theorem upperKeys_buyApply (a : Account) (sym : String) (q : ℕ) (p : ℚ)
    (hsym : IsUpperStr sym) (h1 : ∀ e ∈ a.holdings, IsUpperStr e.1) :
    ∀ e ∈ (buyApply a sym q p).holdings, IsUpperStr e.1 := by
  by_cases hc : a.cash < p * (q : ℚ)
  · rw [buyApply_of_poor a sym q p hc]; exact h1
  · cases hv : hlookup a.holdings sym with
    | none =>
      rw [buyApply_of_none a sym q p hc hv]
      intro e he
      rcases List.mem_append.1 he with hl | hr
      · exact h1 e hl
      · rcases List.mem_singleton.1 hr with rfl
        exact hsym
    | some cur =>
      rw [buyApply_of_some a sym q p cur hc hv]
      exact upperKeys_hset a.holdings sym _ h1

theorem upperKeys_sellApply (a : Account) (sym : String) (q : ℕ) (p : ℚ)
    (h1 : ∀ e ∈ a.holdings, IsUpperStr e.1) :
    ∀ e ∈ (sellApply a sym q p).holdings, IsUpperStr e.1 := by
  cases hv : hlookup a.holdings sym with
  | none => rw [sellApply_of_none a sym q p hv]; exact h1
  | some cur =>
    by_cases hlt : cur.qty < q
    · rw [sellApply_of_over a sym q p cur hv hlt]; exact h1
    · rw [sellApply_of_ok a sym q p cur hv hlt]
      by_cases hz : cur.qty - q = 0
      · rw [if_pos hz]
        intro e he
        exact h1 e (List.mem_of_mem_filter he)
      · rw [if_neg hz]
        exact upperKeys_hset a.holdings sym _ h1

theorem upperInv_applyUiOp (a : Account) (o : UiOp)
    (h1 : ∀ e ∈ a.holdings, IsUpperStr e.1)
    (h2 : ∀ s ∈ a.watchlist, IsUpperStr s) :
    (∀ e ∈ (applyUiOp a o).holdings, IsUpperStr e.1) ∧
    (∀ s ∈ (applyUiOp a o).watchlist, IsUpperStr s) := by
  cases o with
  | buyUi raw q p =>
    refine ⟨upperKeys_buyApply a (pyUpper raw) q p (pyUpper_idem raw) h1, ?_⟩
    rw [show (applyUiOp a (.buyUi raw q p)) = buyApply a (pyUpper raw) q p from rfl,
        buyApply_watchlist]
    exact h2
  | buySearchUi raw q p =>
    rw [show (applyUiOp a (.buySearchUi raw q p)) = buySearchApply a (pyUpper raw) q p from rfl,
        buySearchApply_eq_buyApply]
    refine ⟨upperKeys_buyApply a (pyUpper raw) q p (pyUpper_idem raw) h1, ?_⟩
    rw [buyApply_watchlist]
    exact h2
  | sellUi sym q p =>
    refine ⟨upperKeys_sellApply a sym q p h1, ?_⟩
    rw [show (applyUiOp a (.sellUi sym q p)) = sellApply a sym q p from rfl,
        sellApply_watchlist]
    exact h2
  | searchAddUi raw =>
    refine ⟨h1, ?_⟩
    show ∀ s ∈ (wadd a.watchlist (pyUpper (pyUpper raw))).1, IsUpperStr s
    unfold wadd
    by_cases hm : pyUpper (pyUpper raw) ∈ a.watchlist
    · rw [if_pos hm]; exact h2
    · rw [if_neg hm]
      intro s hs
      rcases List.mem_append.1 hs with hl | hr
      · exact h2 s hl
      · rcases List.mem_singleton.1 hr with rfl
        exact pyUpper_idem (pyUpper raw)
  | watchAddUi raw =>
    refine ⟨h1, ?_⟩
    show ∀ s ∈ (watchPageAdd a.watchlist (pyUpper raw)).1, IsUpperStr s
    unfold watchPageAdd
    by_cases hm : pyUpper raw ≠ "" ∧ pyUpper raw ∉ a.watchlist
    · rw [if_pos hm]
      intro s hs
      rcases List.mem_append.1 hs with hl | hr
      · exact h2 s hl
      · rcases List.mem_singleton.1 hr with rfl
        exact pyUpper_idem raw
    · rw [if_neg hm]; exact h2
  | watchRemoveUi sym =>
    refine ⟨h1, ?_⟩
    show ∀ s ∈ (wremove a.watchlist sym).1, IsUpperStr s
    unfold wremove
    by_cases hm : sym ∈ a.watchlist
    · rw [if_pos hm]
      intro s hs
      exact h2 s (List.mem_of_mem_erase hs)
    · rw [if_neg hm]; exact h2

/-- **C10.** Every symbol stored in holdings and every watchlist entry
is an upper-cased string: each text entry point (`.upper()` on lines
265, 326, 357, 393) upper-cases the typed symbol before the ledger or
watchlist sees it, so two case-variants of the same ticker are never
distinguished by any of these operations. -/
theorem stored_symbols_uppercase (ops : List UiOp) :
    (∀ e ∈ (runUi ops).holdings, IsUpperStr e.1) ∧
    (∀ s ∈ (runUi ops).watchlist, IsUpperStr s) ∧
    (∀ (a : Account) (r1 r2 : String) (q : ℕ) (p : ℚ), pyUpper r1 = pyUpper r2 →
      applyUiOp a (.buyUi r1 q p) = applyUiOp a (.buyUi r2 q p) ∧
      applyUiOp a (.buySearchUi r1 q p) = applyUiOp a (.buySearchUi r2 q p) ∧
      applyUiOp a (.searchAddUi r1) = applyUiOp a (.searchAddUi r2) ∧
      applyUiOp a (.watchAddUi r1) = applyUiOp a (.watchAddUi r2)) := by
  have hrun : (∀ e ∈ (runUi ops).holdings, IsUpperStr e.1) ∧
      (∀ s ∈ (runUi ops).watchlist, IsUpperStr s) := by
    unfold runUi
    have hstep : ∀ (l : List UiOp) (a : Account),
        (∀ e ∈ a.holdings, IsUpperStr e.1) → (∀ s ∈ a.watchlist, IsUpperStr s) →
        (∀ e ∈ (l.foldl applyUiOp a).holdings, IsUpperStr e.1) ∧
        (∀ s ∈ (l.foldl applyUiOp a).watchlist, IsUpperStr s) := by
      intro l
      induction l with
      | nil => exact fun a h1 h2 => ⟨h1, h2⟩
      | cons o t ih =>
        intro a h1 h2
        have h := upperInv_applyUiOp a o h1 h2
        exact ih (applyUiOp a o) h.1 h.2
    exact hstep ops initialAccount
      (fun e he => absurd he (List.not_mem_nil e))
      (fun s hs => absurd hs (List.not_mem_nil s))
  refine ⟨hrun.1, hrun.2, ?_⟩
  intro a r1 r2 q p hup
  refine ⟨?_, ?_, ?_, ?_⟩
  · show buyApply a (pyUpper r1) q p = buyApply a (pyUpper r2) q p
    rw [hup]
  · show buySearchApply a (pyUpper r1) q p = buySearchApply a (pyUpper r2) q p
    rw [hup]
  · show ({ a with watchlist := (wadd a.watchlist (pyUpper (pyUpper r1))).1 } : Account) =
        { a with watchlist := (wadd a.watchlist (pyUpper (pyUpper r2))).1 }
    rw [hup]
  · show ({ a with watchlist := (watchPageAdd a.watchlist (pyUpper r1)).1 } : Account) =
        { a with watchlist := (watchPageAdd a.watchlist (pyUpper r2)).1 }
    rw [hup]

/-- **C10 (witness).** Typing "tsla" on the Search page stores exactly
"TSLA" (an upper-case-fixed string) in the watchlist, and typing "TsLa"
would have produced the identical session state. -/
theorem stored_symbols_uppercase_witness :
    IsUpperStr "TSLA" ∧
    applyUiOp initialAccount (.searchAddUi "tsla") =
      applyUiOp initialAccount (.searchAddUi "TsLa") := by
  have h := stored_symbols_uppercase [UiOp.searchAddUi "tsla"]
  have hrun : runUi [UiOp.searchAddUi "tsla"] =
      { cash := 10000, holdings := [], watchlist := ["TSLA"] } := by decide
  constructor
  · exact h.2.1 "TSLA" (by rw [hrun]; exact List.mem_singleton.2 rfl)
  · exact (h.2.2 initialAccount "tsla" "TsLa" 1 1 (by decide)).2.2.1

end InvSim
